import Mathlib

/-!
Verification of the syseng-agent core (iteasy-ops-dev/ai_agent_cli) against its
natural-language specification.  The Go sources are shallowly embedded: pure
functions become Lean functions, stateful managers become explicit state
passing, external effects (HTTP backends, subprocesses, the JSON library, the
wall clock) become explicit parameters.  Machine integers are modelled by
`Int`/`Nat` (none of the verified code can overflow 64-bit ranges on the
inputs considered).
-/

set_option autoImplicit false

namespace SysengAgent

/-! ## Go string primitives

The Go code uses `strings.Contains`, `strings.HasSuffix`, `strings.TrimSuffix`
and `strings.TrimSpace`.  They are re-implemented here on `List Char` so that
all proofs reduce by computation.  `strTrimSuffixGo` removes the suffix *once*,
exactly like Go's `strings.TrimSuffix`.
-/

/-- `isPrefixL pat l` is true iff `pat` is a prefix of `l` (Go `strings.HasPrefix` on lists). -/
def isPrefixL : List Char → List Char → Bool
  | [], _ => true
  | _ :: _, [] => false
  | a :: as, b :: bs => a == b && isPrefixL as bs

/-- `containsL pat l` is true iff `pat` occurs contiguously inside `l` (Go `strings.Contains`). -/
def containsL (pat : List Char) : List Char → Bool
  | [] => isPrefixL pat []
  | c :: rest => isPrefixL pat (c :: rest) || containsL pat rest

/-- Go `strings.Contains(s, pat)`. -/
def strContainsGo (s pat : String) : Bool := containsL pat.data s.data

/-- Go `strings.HasSuffix(s, suf)`. -/
def strHasSuffixGo (s suf : String) : Bool := isPrefixL suf.data.reverse s.data.reverse

/-- Go `strings.TrimSuffix(s, suf)`: removes `suf` once if present. -/
def strTrimSuffixGo (s suf : String) : String :=
  if strHasSuffixGo s suf then ⟨s.data.take (s.data.length - suf.data.length)⟩ else s

/-! ## LLM Provider Manager: `normalizeLocalEndpoint`

Embedding of `Manager.normalizeLocalEndpoint` (llm package): trim one trailing
slash, then append `/api/chat` when the endpoint looks like an Ollama endpoint
(`:11434` port, or the word `ollama` without an `/api/chat` path).
-/

def normalizeLocalEndpoint (endpoint : String) : String :=
  let e := strTrimSuffixGo endpoint "/"
  if strContainsGo e ":11434" then
    if !strHasSuffixGo e "/api/chat" then e ++ "/api/chat" else e
  else if strContainsGo e "ollama" && !strContainsGo e "/api/chat" then
    e ++ "/api/chat"
  else e

/-! ### List-level lemmas about prefixes and substring occurrence -/

theorem isPrefixL_append_self (l m : List Char) : isPrefixL l (l ++ m) = true := by
  induction l with
  | nil => rfl
  | cons a as ih => simp [isPrefixL, ih]

theorem containsL_of_isPrefixL {pat l : List Char} (h : isPrefixL pat l = true) :
    containsL pat l = true := by
  cases l with
  | nil => simpa [containsL] using h
  | cons c rest => simp [containsL, h]

theorem containsL_nil_pat (l : List Char) : containsL [] l = true := by
  induction l with
  | nil => rfl
  | cons c rest ih => simp [containsL, isPrefixL]

theorem isPrefixL_append_right {pat l : List Char} (m : List Char)
    (h : isPrefixL pat l = true) : isPrefixL pat (l ++ m) = true := by
  induction pat generalizing l with
  | nil => rfl
  | cons p ps ih =>
    cases l with
    | nil => simp [isPrefixL] at h
    | cons a as =>
      simp only [isPrefixL, Bool.and_eq_true, beq_iff_eq] at h ⊢
      exact ⟨h.1, ih h.2⟩

/-- An occurrence inside `l` is still an occurrence inside `l ++ m`. -/
theorem containsL_append_of_left {pat l : List Char} (m : List Char)
    (h : containsL pat l = true) : containsL pat (l ++ m) = true := by
  induction l with
  | nil =>
    simp only [containsL] at h
    cases pat with
    | nil => exact containsL_nil_pat m
    | cons p ps => simp [isPrefixL] at h
  | cons c rest ih =>
    simp only [containsL, Bool.or_eq_true] at h
    rcases h with h | h
    · exact (Bool.or_eq_true _ _).mpr (Or.inl (isPrefixL_append_right m h))
    · exact (Bool.or_eq_true _ _).mpr (Or.inr (ih h))

/-- An occurrence inside `m` is still an occurrence inside `l ++ m`. -/
theorem containsL_append_of_right {pat m : List Char} (l : List Char)
    (h : containsL pat m = true) : containsL pat (l ++ m) = true := by
  induction l with
  | nil => simpa using h
  | cons c rest ih => simp [containsL, ih]

theorem containsL_append_pat (pat l : List Char) :
    containsL pat (l ++ pat) = true :=
  containsL_append_of_right l
    (containsL_of_isPrefixL (by simpa using isPrefixL_append_self pat []))

/-- If `pat` is a prefix of `l ++ c :: m` then either `pat` fits inside `l`,
or the occurrence crosses the boundary and `pat` contains `c`. -/
theorem isPrefixL_append_cases {pat : List Char} {c : Char} :
    ∀ {l m : List Char}, isPrefixL pat (l ++ c :: m) = true →
      isPrefixL pat l = true ∨ c ∈ pat := by
  induction pat with
  | nil => intro l m _; left; rfl
  | cons p ps ih =>
    intro l m h
    cases l with
    | nil =>
      simp only [List.nil_append, isPrefixL, Bool.and_eq_true, beq_iff_eq] at h
      right
      exact h.1 ▸ List.mem_cons_self p ps
    | cons a as =>
      simp only [List.cons_append, isPrefixL, Bool.and_eq_true, beq_iff_eq] at h
      rcases ih h.2 with h' | h'
      · left; simp [isPrefixL, h.1, h']
      · right; exact List.mem_cons_of_mem p h'

/-- Occurrence decomposition across a distinguished middle character. -/
theorem containsL_append_middle {pat : List Char} {c : Char} :
    ∀ {l m : List Char}, containsL pat (l ++ c :: m) = true →
      containsL pat l = true ∨ containsL pat (c :: m) = true ∨ c ∈ pat := by
  intro l m h
  induction l with
  | nil => right; left; simpa using h
  | cons a l' ih =>
    simp only [List.cons_append, containsL, Bool.or_eq_true] at h
    rcases h with h | h
    · rcases isPrefixL_append_cases (l := a :: l') h with h' | h'
      · exact Or.inl (containsL_of_isPrefixL h')
      · exact Or.inr (Or.inr h')
    · rcases ih h with h' | h' | h'
      · left; simp [containsL, h']
      · exact Or.inr (Or.inl h')
      · exact Or.inr (Or.inr h')

/-- If `pat` is a prefix of `t ++ [c]` then it is a prefix of `t`, or it is all
of `t ++ [c]`. -/
theorem isPrefixL_concat_cases {pat : List Char} {c : Char} :
    ∀ {t : List Char}, isPrefixL pat (t ++ [c]) = true →
      isPrefixL pat t = true ∨ pat = t ++ [c] := by
  induction pat with
  | nil => intro t _; left; rfl
  | cons p ps ih =>
    intro t h
    cases t with
    | nil =>
      simp only [List.nil_append, isPrefixL, Bool.and_eq_true, beq_iff_eq] at h
      obtain ⟨rfl, h2⟩ := h
      cases ps with
      | nil => right; rfl
      | cons q qs => simp [isPrefixL] at h2
    | cons a t' =>
      simp only [List.cons_append, isPrefixL, Bool.and_eq_true, beq_iff_eq] at h
      obtain ⟨rfl, h2⟩ := h
      rcases ih h2 with h' | h'
      · left; simp [isPrefixL, h']
      · right; simp [h']

/-- An occurrence inside `l ++ [c]` is either inside `l`, or ends exactly at
`c`, in which case `pat` ends in `c`. -/
theorem containsL_concat_cases {pat : List Char} {c : Char} :
    ∀ {l : List Char}, containsL pat (l ++ [c]) = true →
      containsL pat l = true ∨ ∃ t, pat = t ++ [c] := by
  intro l h
  induction l with
  | nil =>
    simp only [List.nil_append, containsL, Bool.or_eq_true] at h
    rcases h with h | h
    · rcases isPrefixL_concat_cases (t := []) h with h' | h'
      · exact Or.inl (containsL_of_isPrefixL h')
      · exact Or.inr ⟨[], h'⟩
    · exact Or.inl (containsL_of_isPrefixL h)
  | cons a l' ih =>
    simp only [List.cons_append, containsL, Bool.or_eq_true] at h
    rcases h with h | h
    · rcases isPrefixL_concat_cases (t := a :: l') h with h' | h'
      · exact Or.inl (containsL_of_isPrefixL h')
      · exact Or.inr ⟨a :: l', h'⟩
    · rcases ih h with h' | h'
      · left; simp [containsL, h']
      · exact Or.inr h'

/-- Occurrence in a prefix extends to the full list. -/
theorem containsL_of_take {pat l : List Char} {n : Nat}
    (h : containsL pat (l.take n) = true) : containsL pat l = true := by
  have := containsL_append_of_left (l.drop n) h
  rwa [List.take_append_drop] at this

theorem isPrefixL_head {a b : Char} {as bs : List Char}
    (h : isPrefixL (a :: as) (b :: bs) = true) : a = b := by
  simp only [isPrefixL, Bool.and_eq_true, beq_iff_eq] at h
  exact h.1

/-! ### String-level lemmas feeding the `normalizeLocalEndpoint` analysis -/

theorem strDataAppend (a b : String) : (a ++ b).data = a.data ++ b.data := rfl

theorem strHasSuffixGo_append (e suf : String) : strHasSuffixGo (e ++ suf) suf = true := by
  unfold strHasSuffixGo
  rw [strDataAppend, List.reverse_append]
  exact isPrefixL_append_self _ _

theorem strContainsGo_append_left {e : String} (m : String) {pat : String}
    (h : strContainsGo e pat = true) : strContainsGo (e ++ m) pat = true := by
  unfold strContainsGo at h ⊢
  rw [strDataAppend]
  exact containsL_append_of_left m.data h

theorem strContainsGo_append_pat (e pat : String) : strContainsGo (e ++ pat) pat = true := by
  unfold strContainsGo
  rw [strDataAppend]
  exact containsL_append_pat pat.data e.data

/-- A string ending in `/api/chat` does not end in `/`. -/
theorem strHasSuffixGo_slash_false {s : String}
    (h : strHasSuffixGo s "/api/chat" = true) : strHasSuffixGo s "/" = false := by
  unfold strHasSuffixGo at h ⊢
  have hpat : "/api/chat".data.reverse = 't' :: "ahc/ipa/".data := by decide
  have hsl : "/".data.reverse = ['/'] := by decide
  rw [hpat] at h
  rw [hsl]
  cases hs : s.data.reverse with
  | nil => rw [hs] at h; simp [isPrefixL] at h
  | cons a l =>
    rw [hs] at h
    have ha : 't' = a := isPrefixL_head h
    subst ha
    simp [isPrefixL]

theorem strTrimSuffixGo_eq_self {s suf : String} (h : strHasSuffixGo s suf = false) :
    strTrimSuffixGo s suf = s := by
  unfold strTrimSuffixGo
  rw [if_neg]
  simp [h]

/-- A string ending in `/` decomposes as its one-slash trim plus the slash. -/
theorem strTrimSuffixGo_slash_decomp {s : String} (h : strHasSuffixGo s "/" = true) :
    s.data = (strTrimSuffixGo s "/").data ++ ['/'] := by
  have h' := h
  unfold strHasSuffixGo at h'
  have hsl : "/".data.reverse = ['/'] := by decide
  rw [hsl] at h'
  cases hs : s.data.reverse with
  | nil => rw [hs] at h'; simp [isPrefixL] at h'
  | cons a l =>
    rw [hs] at h'
    have ha : '/' = a := isPrefixL_head h'
    subst ha
    have hdata : s.data = l.reverse ++ ['/'] := by
      have := congrArg List.reverse hs
      simpa using this
    have htake : (strTrimSuffixGo s "/").data = l.reverse := by
      unfold strTrimSuffixGo
      rw [if_pos (by simpa using h)]
      show s.data.take (s.data.length - "/".data.length) = l.reverse
      rw [hdata]
      have hlen : (l.reverse ++ ['/']).length - "/".data.length = l.reverse.length := by
        simp
      rw [hlen]
      exact List.take_left l.reverse ['/']
    rw [htake, ← hdata]

/-- Trimming one trailing slash cannot create a new substring occurrence. -/
theorem strContainsGo_trim_false {s pat : String} (h : strContainsGo s pat = false) :
    strContainsGo (strTrimSuffixGo s "/") pat = false := by
  cases hsuf : strHasSuffixGo s "/" with
  | false => rw [strTrimSuffixGo_eq_self hsuf]; exact h
  | true =>
    cases hc : strContainsGo (strTrimSuffixGo s "/") pat with
    | false => rfl
    | true =>
      exfalso
      unfold strContainsGo at h hc
      have hd := strTrimSuffixGo_slash_decomp hsuf
      have := containsL_append_of_left ['/'] hc
      rw [← hd] at this
      rw [this] at h
      simp at h

/-- Trimming one trailing slash keeps an `/api/chat` occurrence (the pattern
    ends in `t`, so no occurrence can use the removed slash). -/
theorem strContainsGo_apiChat_trim {s : String} (h : strContainsGo s "/api/chat" = true) :
    strContainsGo (strTrimSuffixGo s "/") "/api/chat" = true := by
  cases hsuf : strHasSuffixGo s "/" with
  | false => rw [strTrimSuffixGo_eq_self hsuf]; exact h
  | true =>
    unfold strContainsGo at h ⊢
    have hd := strTrimSuffixGo_slash_decomp hsuf
    rw [hd] at h
    rcases containsL_concat_cases h with h' | ⟨t, ht⟩
    · exact h'
    · exfalso
      have := congrArg List.getLast? ht
      rw [List.getLast?_concat] at this
      exact absurd this (by decide)

/-- Appending `/api/chat` cannot create a `:11434` occurrence: the pattern has
    no slash, so it cannot cross the boundary, and it does not occur in
    `/api/chat` itself. -/
theorem strContainsGo_11434_append {e : String} (h : strContainsGo e ":11434" = false) :
    strContainsGo (e ++ "/api/chat") ":11434" = false := by
  cases hc : strContainsGo (e ++ "/api/chat") ":11434" with
  | false => rfl
  | true =>
    exfalso
    unfold strContainsGo at hc h
    rw [strDataAppend] at hc
    have hsplit : "/api/chat".data = '/' :: "api/chat".data := by decide
    rw [hsplit] at hc
    rcases containsL_append_middle hc with h' | h' | h'
    · rw [h'] at h; simp at h
    · rw [← hsplit] at h'
      exact absurd h' (by decide)
    · exact absurd h' (by decide)

/-! ### C10: behaviour of `normalizeLocalEndpoint` under repetition -/

/-- C10 (amended): `normalizeLocalEndpoint` is not idempotent in general.
Because Go's `strings.TrimSuffix` strips at most one trailing slash, the second
application equals `TrimSuffix(first application, "/")`; in particular the
`/api/chat` suffix is appended at most once, and the two applications agree
exactly when the first result does not end in a slash. -/
theorem normalizeLocalEndpoint_twice (e : String) :
    normalizeLocalEndpoint (normalizeLocalEndpoint e)
      = strTrimSuffixGo (normalizeLocalEndpoint e) "/" := by
  cases h1 : strContainsGo (strTrimSuffixGo e "/") ":11434" with
  | true =>
    cases h2 : strHasSuffixGo (strTrimSuffixGo e "/") "/api/chat" with
    | true =>
      have hfe : normalizeLocalEndpoint e = strTrimSuffixGo e "/" := by
        simp [normalizeLocalEndpoint, h1, h2]
      have hs : strHasSuffixGo (strTrimSuffixGo e "/") "/" = false :=
        strHasSuffixGo_slash_false h2
      have htrim := strTrimSuffixGo_eq_self hs
      rw [hfe]
      simp [normalizeLocalEndpoint, htrim, h1, h2]
    | false =>
      have hfe : normalizeLocalEndpoint e = strTrimSuffixGo e "/" ++ "/api/chat" := by
        simp [normalizeLocalEndpoint, h1, h2]
      have hsuf := strHasSuffixGo_append (strTrimSuffixGo e "/") "/api/chat"
      have hs := strHasSuffixGo_slash_false hsuf
      have htrim := strTrimSuffixGo_eq_self hs
      have hc : strContainsGo (strTrimSuffixGo e "/" ++ "/api/chat") ":11434" = true :=
        strContainsGo_append_left _ h1
      rw [hfe]
      simp [normalizeLocalEndpoint, htrim, hc, hsuf]
  | false =>
    cases hB : strContainsGo (strTrimSuffixGo e "/") "ollama"
        && !strContainsGo (strTrimSuffixGo e "/") "/api/chat" with
    | true =>
      have hfe : normalizeLocalEndpoint e = strTrimSuffixGo e "/" ++ "/api/chat" := by
        simp only [normalizeLocalEndpoint, h1]
        simp [hB]
      have hsuf := strHasSuffixGo_append (strTrimSuffixGo e "/") "/api/chat"
      have hs := strHasSuffixGo_slash_false hsuf
      have htrim := strTrimSuffixGo_eq_self hs
      have hc1 : strContainsGo (strTrimSuffixGo e "/" ++ "/api/chat") ":11434" = false :=
        strContainsGo_11434_append h1
      have hc3 : strContainsGo (strTrimSuffixGo e "/" ++ "/api/chat") "/api/chat" = true :=
        strContainsGo_append_pat _ _
      rw [hfe]
      simp [normalizeLocalEndpoint, htrim, hc1, hc3]
    | false =>
      have hfe : normalizeLocalEndpoint e = strTrimSuffixGo e "/" := by
        simp only [normalizeLocalEndpoint, h1]
        simp [hB]
      rw [hfe]
      have hc1' : strContainsGo (strTrimSuffixGo (strTrimSuffixGo e "/") "/") ":11434" = false :=
        strContainsGo_trim_false h1
      have hcond : (strContainsGo (strTrimSuffixGo (strTrimSuffixGo e "/") "/") "ollama"
          && !strContainsGo (strTrimSuffixGo (strTrimSuffixGo e "/") "/") "/api/chat") = false := by
        rcases Bool.and_eq_false_iff.mp hB with h | h
        · cases hco : strContainsGo (strTrimSuffixGo (strTrimSuffixGo e "/") "/") "ollama" with
          | false => simp
          | true =>
            exfalso
            have := strContainsGo_trim_false h
            rw [this] at hco
            simp at hco
        · have h' : strContainsGo (strTrimSuffixGo e "/") "/api/chat" = true := by
            cases hx : strContainsGo (strTrimSuffixGo e "/") "/api/chat" with
            | true => rfl
            | false => rw [hx] at h; simp at h
          have := strContainsGo_apiChat_trim h'
          simp [this]
      simp [normalizeLocalEndpoint, hc1', hcond]

/-- C10 counterexample: `normalizeLocalEndpoint` is not idempotent as claimed.
On `"http://x//"` one application trims a single trailing slash (yielding
`"http://x/"`), and a second application trims the remaining slash. -/
theorem normalizeLocalEndpoint_not_idempotent :
    normalizeLocalEndpoint (normalizeLocalEndpoint "http://x//")
      ≠ normalizeLocalEndpoint "http://x//" := by decide

/-! ## JSON values

`encoding/json` deserializes into `map[string]interface{}` / `[]interface{}` /
primitives; `JsonVal` is the corresponding value universe.  The JSON library
itself (parsing of raw strings) is external code and is passed to the loop as
an explicit `JsonUnmarshal` parameter.
-/

inductive JsonVal where
  | null
  | bool (b : Bool)
  | num (n : Int)
  | str (s : String)
  | arr (elems : List JsonVal)
  | obj (fields : List (String × JsonVal))

/-- Result type of `json.Unmarshal` into `map[string]interface{}`. -/
def JsonUnmarshal : Type := String → Except String (List (String × JsonVal))

/-- Go map field access `m[k]`: first binding wins (maps have unique keys). -/
def lookupField (fields : List (String × JsonVal)) (k : String) : Option JsonVal :=
  (fields.find? (fun p => p.1 = k)).map (fun p => p.2)

mutual

/-- `json.Marshal` on a `JsonVal` (string escaping of exotic characters is not
modelled; none of the verified properties depend on it). -/
def jsonSerialize : JsonVal → String
  | .null => "null"
  | .bool true => "true"
  | .bool false => "false"
  | .num n => toString n
  | .str s => "\"" ++ s ++ "\""
  | .arr elems => "[" ++ jsonSerializeArr elems ++ "]"
  | .obj fields => "\x7b" ++ jsonSerializeObj fields ++ "\x7d"

def jsonSerializeArr : List JsonVal → String
  | [] => ""
  | [x] => jsonSerialize x
  | x :: y :: rest => jsonSerialize x ++ "," ++ jsonSerializeArr (y :: rest)

def jsonSerializeObj : List (String × JsonVal) → String
  | [] => ""
  | [(k, v)] => "\"" ++ k ++ "\":" ++ jsonSerialize v
  | (k, v) :: p :: rest => "\"" ++ k ++ "\":" ++ jsonSerialize v ++ "," ++ jsonSerializeObj (p :: rest)

end

/-! ## OpenAI chat types (llm package, `clients.go`)

`Message` carries the extra `name` field used by the client-bound tool loop
(`openai_client.go` populates `Name:` on `tool`-role messages).
-/

/-- Go type `Function`: the function part of a tool call (raw JSON arguments). -/
structure FunctionCall where
  name : String
  arguments : String
  deriving DecidableEq, Repr

/-- Go type `ToolCall`. -/
structure ToolCall where
  id : String
  type' : String := "function"
  function : FunctionCall
  deriving DecidableEq, Repr

/-- Go type `Message` (chat message). -/
structure Message where
  role : String
  content : String
  toolCalls : List ToolCall := []
  toolCallID : String := ""
  name : String := ""
  deriving DecidableEq, Repr

/-- Go type `ToolFunction`: name, description and JSON-schema parameters
(`map[string]interface{}`, which may be `nil`). -/
structure ToolFunction where
  name : String
  description : String := ""
  parameters : Option (List (String × JsonVal)) := none

/-- Go type `Tool`. -/
structure Tool where
  type' : String := "function"
  function : ToolFunction

/-- Go type `Choice` of `OpenAIResponse`. -/
structure Choice where
  message : Message
  deriving DecidableEq, Repr

/-- The invoke callback `func(name, args) (interface{}, error)`. -/
def ToolCaller : Type := String → List (String × JsonVal) → Except String JsonVal

/-! ## Constants (llm package, `constants.go`) -/

def RoleTool : String := "tool"
def ProviderOpenAI : String := "openai"
def MaxToolIterations : Nat := 10

/-- `fmt.Errorf(ErrParsingArguments, err)`. -/
def errParsingArguments (msg : String) : String := "Error parsing arguments: " ++ msg

/-- `fmt.Errorf(ErrMaxIterationsExceeded, MaxToolIterations)`. -/
def errMaxIterationsExceeded (n : Nat) : String :=
  "conversation exceeded maximum iterations (" ++ toString n ++ ")"

/-- `fmt.Errorf(ErrAPIKeyRequired, ProviderOpenAI)`. -/
def errAPIKeyRequired (p : String) : String := "API key is required for " ++ p

/-! ## Tool processor (llm package, `tool_utils.go`) -/

/-- `ToolProcessor.FindTool`: first tool whose function name matches. -/
def findTool (tools : List Tool) (name : String) : Option Tool :=
  tools.find? (fun t => t.function.name = name)

/-- The inner loop of `ValidateToolCall`: walk the `required` array, skipping
non-string entries, failing at the first required key absent from `args`. -/
def checkRequiredParams (args : List (String × JsonVal)) (toolName : String) :
    List JsonVal → Except String Unit
  | [] => .ok ()
  | JsonVal.str r :: rest =>
      if (lookupField args r).isSome then checkRequiredParams args toolName rest
      else .error ("required parameter " ++ r ++ " missing for tool " ++ toolName)
  | _ :: rest => checkRequiredParams args toolName rest

/-- `ToolProcessor.ValidateToolCall`. -/
def validateToolCall (tools : List Tool) (name : String)
    (args : List (String × JsonVal)) : Except String Unit :=
  match findTool tools name with
  | none => .error ("tool " ++ name ++ " not found")
  | some tool =>
    match tool.function.parameters with
    | none => .ok ()
    | some params =>
      match lookupField params "required" with
      | some (JsonVal.arr reqs) => checkRequiredParams args name reqs
      | _ => .ok ()

/-- `ToolProcessor.ExecuteTool`: validate, then call the callback. -/
def executeTool (tools : List Tool) (toolCaller : ToolCaller) (name : String)
    (args : List (String × JsonVal)) : Except String JsonVal :=
  match validateToolCall tools name args with
  | .error e => .error e
  | .ok _ => toolCaller name args

/-- `FormatToolResult`: `nil` serializes to "null", everything else via
`json.Marshal`. -/
def formatToolResult (result : JsonVal) : String := jsonSerialize result

/-! ## The OpenAI client-bound tool loop
(`OpenAIClient.processToolConversation`, part of the llm package)

The HTTP backend is a parameter: given the request's message sequence it
either fails (transport or decode error from `PostJSON` /
`UnmarshalJSONResponse`) or produces the decoded response's choices.  Message
sequences strictly grow across iterations, so a function of the sent messages
captures every possible backend behaviour.
-/

inductive BackendResult where
  | fail (msg : String)
  | response (choices : List Choice)
  deriving DecidableEq, Repr

def Backend : Type := List Message → BackendResult

/-- The per-assistant-turn inner `for _, toolCall := range ...` body, for one
tool call: parse arguments (on failure a `tool`-role turn with
`Error parsing arguments:`), execute (on failure a `tool`-role turn with
`Error:`), else a `tool`-role turn with the serialized result. -/
def toolTurn (tools : List Tool) (ju : JsonUnmarshal) (toolCaller : ToolCaller)
    (tc : ToolCall) : Message :=
  match ju tc.function.arguments with
  | .error msg =>
    { role := RoleTool, content := errParsingArguments msg,
      toolCallID := tc.id, name := tc.function.name }
  | .ok args =>
    match executeTool tools toolCaller tc.function.name args with
    | .error e =>
      { role := RoleTool, content := "Error: " ++ e,
        toolCallID := tc.id, name := tc.function.name }
    | .ok result =>
      { role := RoleTool, content := formatToolResult result,
        toolCallID := tc.id, name := tc.function.name }

/-- The inner `for _, toolCall := range choice.Message.ToolCalls` loop:
with a nil callback every call is skipped, otherwise one `tool`-role turn is
appended per call, in order. -/
def execToolCallsGo (tools : List Tool) (ju : JsonUnmarshal)
    (toolCaller : Option ToolCaller) (msgs : List Message) :
    List ToolCall → List Message
  | [] => msgs
  | tc :: rest =>
    match toolCaller with
    | none => execToolCallsGo tools ju toolCaller msgs rest
    | some f => execToolCallsGo tools ju toolCaller (msgs ++ [toolTurn tools ju f tc]) rest

inductive LoopResult where
  | ok (answer : String)
  | err (msg : String)
  deriving DecidableEq, Repr

/-- The `for iteration := 0; iteration < MaxToolIterations; iteration++` loop
of `processToolConversation`.  Returns the result together with the number of
backend calls performed. -/
def toolLoop (backend : Backend) (tools : List Tool) (ju : JsonUnmarshal)
    (toolCaller : Option ToolCaller) : Nat → List Message → LoopResult × Nat
  | 0, _ => (.err (errMaxIterationsExceeded MaxToolIterations), 0)
  | fuel + 1, messages =>
    match backend messages with
    | .fail e => (.err e, 1)
    | .response [] => (.err "no response choices received", 1)
    | .response (choice :: _) =>
      let messages1 := messages ++ [choice.message]
      if choice.message.toolCalls.isEmpty then
        (.ok choice.message.content, 1)
      else
        let next := toolLoop backend tools ju toolCaller fuel
          (execToolCallsGo tools ju toolCaller messages1 choice.message.toolCalls)
        (next.1, next.2 + 1)

/-- `OpenAIClient.processToolConversation`: API-key guard, then the bounded
tool loop on the given message sequence. -/
def processToolConversationGo (apiKey : String) (backend : Backend)
    (tools : List Tool) (ju : JsonUnmarshal) (toolCaller : Option ToolCaller)
    (messages : List Message) : LoopResult × Nat :=
  if apiKey = "" then (.err (errAPIKeyRequired ProviderOpenAI), 0)
  else toolLoop backend tools ju toolCaller MaxToolIterations messages

/-! ### Helper lemmas about the tool loop -/

theorem toolTurn_fields (tools : List Tool) (ju : JsonUnmarshal) (f : ToolCaller)
    (tc : ToolCall) :
    (toolTurn tools ju f tc).role = RoleTool
      ∧ (toolTurn tools ju f tc).toolCallID = tc.id := by
  unfold toolTurn
  split
  · exact ⟨rfl, rfl⟩
  · split
    · exact ⟨rfl, rfl⟩
    · exact ⟨rfl, rfl⟩

theorem execToolCallsGo_some_eq (tools : List Tool) (ju : JsonUnmarshal) (f : ToolCaller) :
    ∀ (tcs : List ToolCall) (msgs : List Message),
      execToolCallsGo tools ju (some f) msgs tcs = msgs ++ tcs.map (toolTurn tools ju f) := by
  intro tcs
  induction tcs with
  | nil => intro msgs; simp [execToolCallsGo]
  | cons tc rest ih =>
    intro msgs
    simp only [execToolCallsGo, List.map_cons]
    rw [ih]
    simp

theorem toolLoop_count_le (backend : Backend) (tools : List Tool) (ju : JsonUnmarshal)
    (toolCaller : Option ToolCaller) :
    ∀ (fuel : Nat) (msgs : List Message),
      (toolLoop backend tools ju toolCaller fuel msgs).2 ≤ fuel := by
  intro fuel
  induction fuel with
  | zero => intro msgs; simp [toolLoop]
  | succ n ih =>
    intro msgs
    cases hb : backend msgs with
    | fail e => simp [toolLoop, hb]
    | response cs =>
      cases cs with
      | nil => simp [toolLoop, hb]
      | cons c rest =>
        cases hcE : c.message.toolCalls.isEmpty with
        | true => simp [toolLoop, hb, hcE]
        | false =>
          simp only [toolLoop, hb, hcE, Bool.false_eq_true, if_false]
          exact Nat.succ_le_succ (ih _)

theorem toolLoop_all_toolCalls (backend : Backend) (tools : List Tool) (ju : JsonUnmarshal)
    (toolCaller : Option ToolCaller)
    (hok : ∀ ms, ∃ c cs, backend ms = BackendResult.response (c :: cs))
    (hall : ∀ ms c cs, backend ms = BackendResult.response (c :: cs) →
      c.message.toolCalls ≠ []) :
    ∀ (fuel : Nat) (msgs : List Message),
      (toolLoop backend tools ju toolCaller fuel msgs).1
        = LoopResult.err (errMaxIterationsExceeded MaxToolIterations) := by
  intro fuel
  induction fuel with
  | zero => intro msgs; rfl
  | succ n ih =>
    intro msgs
    obtain ⟨c, cs, hb⟩ := hok msgs
    have hne := hall msgs c cs hb
    have hcE : c.message.toolCalls.isEmpty = false := by
      cases hcc : c.message.toolCalls with
      | nil => exact absurd hcc hne
      | cons a l => simp [hcc]
    simp [toolLoop, hb, hcE, ih]

theorem toolLoop_ok_src (backend : Backend) (tools : List Tool) (ju : JsonUnmarshal)
    (toolCaller : Option ToolCaller) :
    ∀ (fuel : Nat) (msgs : List Message) (s : String),
      (toolLoop backend tools ju toolCaller fuel msgs).1 = LoopResult.ok s →
      ∃ ms c cs, backend ms = BackendResult.response (c :: cs)
        ∧ c.message.toolCalls = [] ∧ c.message.content = s := by
  intro fuel
  induction fuel with
  | zero => intro msgs s h; exact absurd h (by simp [toolLoop])
  | succ n ih =>
    intro msgs s h
    cases hb : backend msgs with
    | fail e => simp [toolLoop, hb] at h
    | response cs =>
      cases cs with
      | nil => simp [toolLoop, hb] at h
      | cons c rest =>
        cases hcE : c.message.toolCalls.isEmpty with
        | true =>
          have hnil : c.message.toolCalls = [] := by
            cases hcc : c.message.toolCalls with
            | nil => rfl
            | cons a l => rw [hcc] at hcE; simp at hcE
          simp [toolLoop, hb, hcE] at h
          exact ⟨msgs, c, rest, hb, hnil, h⟩
        | false =>
          simp only [toolLoop, hb, hcE, Bool.false_eq_true, if_false] at h
          exact ih _ s h

theorem toolLoop_dichotomy (backend : Backend) (tools : List Tool) (ju : JsonUnmarshal)
    (toolCaller : Option ToolCaller)
    (hok : ∀ ms, ∃ c cs, backend ms = BackendResult.response (c :: cs)) :
    ∀ (fuel : Nat) (msgs : List Message),
      (∃ s, (toolLoop backend tools ju toolCaller fuel msgs).1 = LoopResult.ok s)
        ∨ (toolLoop backend tools ju toolCaller fuel msgs).1
            = LoopResult.err (errMaxIterationsExceeded MaxToolIterations) := by
  intro fuel
  induction fuel with
  | zero => intro msgs; right; rfl
  | succ n ih =>
    intro msgs
    obtain ⟨c, cs, hb⟩ := hok msgs
    cases hcE : c.message.toolCalls.isEmpty with
    | true => left; exact ⟨c.message.content, by simp [toolLoop, hb, hcE]⟩
    | false =>
      simp only [toolLoop, hb, hcE, Bool.false_eq_true, if_false]
      exact ih _

/-! ### C1: the iteration cap of the OpenAI-hosted tool loop -/

/-- C1 (amended): the loop performs at most `MaxToolIterations` (= 10) backend
calls.  Provided every backend call succeeds with a non-empty choice list:
if every returned assistant turn carries tool calls, the loop returns the
max-iterations-exceeded error carrying the cap; any final answer is the text
of a returned assistant turn without tool calls; and one of the two outcomes
always holds.  (A backend transport, decode or empty-choices failure instead
aborts the loop with that error, which is why the success hypothesis is
required.) -/
theorem processToolConversation_iteration_cap
    (apiKey : String) (backend : Backend) (tools : List Tool) (ju : JsonUnmarshal)
    (toolCaller : Option ToolCaller) (messages : List Message)
    (hkey : apiKey ≠ "")
    (hok : ∀ ms, ∃ c cs, backend ms = BackendResult.response (c :: cs)) :
    (processToolConversationGo apiKey backend tools ju toolCaller messages).2
        ≤ MaxToolIterations
    ∧ ((∀ ms c cs, backend ms = BackendResult.response (c :: cs) →
          c.message.toolCalls ≠ []) →
        (processToolConversationGo apiKey backend tools ju toolCaller messages).1
          = LoopResult.err (errMaxIterationsExceeded MaxToolIterations))
    ∧ (∀ s, (processToolConversationGo apiKey backend tools ju toolCaller messages).1
          = LoopResult.ok s →
        ∃ ms c cs, backend ms = BackendResult.response (c :: cs)
          ∧ c.message.toolCalls = [] ∧ c.message.content = s)
    ∧ ((∃ s, (processToolConversationGo apiKey backend tools ju toolCaller messages).1
          = LoopResult.ok s)
        ∨ (processToolConversationGo apiKey backend tools ju toolCaller messages).1
            = LoopResult.err (errMaxIterationsExceeded MaxToolIterations)) := by
  have hgo : processToolConversationGo apiKey backend tools ju toolCaller messages
      = toolLoop backend tools ju toolCaller MaxToolIterations messages := by
    simp [processToolConversationGo, hkey]
  refine ⟨?_, ?_, ?_, ?_⟩
  · rw [hgo]; exact toolLoop_count_le backend tools ju toolCaller MaxToolIterations messages
  · intro hall
    rw [hgo]
    exact toolLoop_all_toolCalls backend tools ju toolCaller hok hall MaxToolIterations messages
  · intro s h
    rw [hgo] at h
    exact toolLoop_ok_src backend tools ju toolCaller MaxToolIterations messages s h
  · rw [hgo]
    exact toolLoop_dichotomy backend tools ju toolCaller hok MaxToolIterations messages

/-- Concrete fixtures used by witnesses. -/
def assistantChoiceEx : Choice := ⟨{ role := "assistant", content := "hi" }⟩

def backendEx : Backend := fun _ => BackendResult.response [assistantChoiceEx]

def juFailEx : JsonUnmarshal := fun _ => Except.error "unexpected end of JSON input"

def callerEx : ToolCaller := fun _ _ => Except.ok JsonVal.null

theorem processToolConversation_iteration_cap_witness :
    (processToolConversationGo "sk-test" backendEx [] juFailEx none []).2
      ≤ MaxToolIterations :=
  (processToolConversation_iteration_cap "sk-test" backendEx [] juFailEx none []
    (by decide) (fun _ => ⟨assistantChoiceEx, [], rfl⟩)).1

/-- C1 counterexample: the claim quantifies over *every* backend behaviour, but
a backend whose call fails (transport error) yields that transport error, not
the max-iterations-exceeded error, even though no iteration produced an
assistant turn without tool calls. -/
theorem processToolConversation_transport_error_result :
    (processToolConversationGo "sk-test" (fun _ => BackendResult.fail "network error")
        [] juFailEx none []).1 = LoopResult.err "network error"
    ∧ LoopResult.err "network error"
        ≠ LoopResult.err (errMaxIterationsExceeded MaxToolIterations) := by
  constructor
  · decide
  · decide

/-! ### C5: argument-parse failure inside the tool loop -/

/-- C5: when a tool call's argument string fails to parse, a `tool`-role turn
keyed by the call id carrying `Error parsing arguments: <msg>` is appended,
the loop continues with the remaining calls, and the produced turn does not
depend on the invoke callback (the callback is not invoked for that call). -/
theorem toolCall_parse_failure_appends_error_turn
    (tools : List Tool) (ju : JsonUnmarshal) (f : ToolCaller) (msgs : List Message)
    (tc : ToolCall) (rest : List ToolCall) (msg : String)
    (h : ju tc.function.arguments = Except.error msg) :
    execToolCallsGo tools ju (some f) msgs (tc :: rest)
      = execToolCallsGo tools ju (some f)
          (msgs ++ [{ role := RoleTool, content := errParsingArguments msg,
                      toolCallID := tc.id, name := tc.function.name }]) rest
    ∧ (∀ g : ToolCaller, toolTurn tools ju g tc = toolTurn tools ju f tc) := by
  have hturn : ∀ g : ToolCaller, toolTurn tools ju g tc
      = { role := RoleTool, content := errParsingArguments msg,
          toolCallID := tc.id, name := tc.function.name } := by
    intro g
    unfold toolTurn
    rw [h]
  constructor
  · simp only [execToolCallsGo]
    rw [hturn f]
  · intro g
    rw [hturn g, hturn f]

def tcParseEx : ToolCall :=
  { id := "call_1", function := { name := "list_directory", arguments := "not json" } }

theorem toolCall_parse_failure_appends_error_turn_witness :
    execToolCallsGo [] juFailEx (some callerEx) [] [tcParseEx]
      = execToolCallsGo [] juFailEx (some callerEx)
          ([] ++ [{ role := RoleTool,
                    content := errParsingArguments "unexpected end of JSON input",
                    toolCallID := "call_1", name := "list_directory" }]) [] :=
  (toolCall_parse_failure_appends_error_turn [] juFailEx callerEx [] tcParseEx []
    "unexpected end of JSON input" rfl).1

/-! ### C6: one `tool`-role turn per tool call, in emission order -/

/-- C6: an assistant turn carrying N>1 tool calls makes the iteration append
exactly N `tool`-role turns — one per call, in the order the calls were
emitted — each keyed by its call id (a result turn, a parse-error turn, or an
execution-error turn, which are the three branches of `toolTurn`). -/
theorem assistant_turn_appends_one_tool_turn_per_call
    (tools : List Tool) (ju : JsonUnmarshal) (f : ToolCaller) (msgs : List Message)
    (tcs : List ToolCall) (_hlen : 1 < tcs.length) :
    execToolCallsGo tools ju (some f) msgs tcs = msgs ++ tcs.map (toolTurn tools ju f)
    ∧ (tcs.map (toolTurn tools ju f)).length = tcs.length
    ∧ ∀ tc ∈ tcs, (toolTurn tools ju f tc).role = RoleTool
        ∧ (toolTurn tools ju f tc).toolCallID = tc.id := by
  refine ⟨execToolCallsGo_some_eq tools ju f tcs msgs, by simp, ?_⟩
  intro tc _
  exact toolTurn_fields tools ju f tc

def tcEx2 : ToolCall :=
  { id := "call_2", function := { name := "read_file", arguments := "also not json" } }

theorem assistant_turn_appends_one_tool_turn_per_call_witness :
    execToolCallsGo [] juFailEx (some callerEx) [] [tcParseEx, tcEx2]
      = [] ++ [tcParseEx, tcEx2].map (toolTurn [] juFailEx callerEx) :=
  (assistant_turn_appends_one_tool_turn_per_call [] juFailEx callerEx []
    [tcParseEx, tcEx2] (by decide)).1

/-! ## MCP Tool-Provider Registry (mcp package, `manager.go`)

Server records are embedded with timestamps in Unix seconds (`Int`); the
subprocess and the JSON-RPC exchange underlying a `CallTool` are external
effects, passed in as a `CallEnv`.
-/

/-- Go type `types.Tool` stored on a server record. -/
structure MCPTool where
  name : String
  description : String := ""
  schema : List (String × JsonVal) := []

/-- Go type `types.MCPServer`. -/
structure MCPServer where
  id : String
  name : String
  transport : String
  url : String
  status : String
  lastPing : Int
  createdAt : Int := 0
  updatedAt : Int := 0
  capabilities : List String := []
  tools : List MCPTool := []

/-- The record mutation performed by `Manager.UpdateServerStatus` on the found
server: set the status and `UpdatedAt`; update `LastPing` only for
non-`unhealthy` status changes. -/
def updateServerStatusServer (s : MCPServer) (status : String) (now : Int) : MCPServer :=
  { s with
    status := status
    updatedAt := now
    lastPing := if status ≠ "unhealthy" then now else s.lastPing }

/-- `Manager.UpdateServerStatus`: unknown ids leave the map unchanged (an error
is returned to the caller). -/
def updateServerStatus (servers : List MCPServer) (id status : String) (now : Int) :
    List MCPServer :=
  if servers.any (fun q => q.id = id) then
    servers.map (fun q => if q.id = id then updateServerStatusServer q status now else q)
  else servers

/-- `Manager.healthCheck`: stdio servers are skipped entirely; sse/http become
unhealthy after 60 s without a ping; unknown transports after 2 minutes. -/
def healthCheck (now : Int) (s : MCPServer) : MCPServer :=
  if s.transport = "stdio" then s
  else if s.transport = "sse" ∨ s.transport = "http" then
    if now - s.lastPing > 60 then updateServerStatusServer s "unhealthy" now else s
  else
    if now - s.lastPing > 120 then updateServerStatusServer s "unhealthy" now else s

/-- Outcome of the external subprocess interactions inside one `CallTool`. -/
structure CallEnv where
  freshStart : Except String Unit
  callResult : Except String JsonVal

/-- The branch structure of `Manager.CallTool` producing the raw result:
mock stdio servers (url `echo`/`mock`) require a stored process; real stdio
servers spawn a fresh process; other transports require a stored persistent
connection. -/
def callToolResult (server : MCPServer) (processes : List String) (serverID : String)
    (env : CallEnv) : Except String JsonVal :=
  if server.transport = "stdio" then
    if server.url = "echo" ∨ server.url = "mock" then
      if processes.contains serverID then env.callResult
      else .error ("MCP server " ++ serverID ++ " not available")
    else
      match env.freshStart with
      | .error e => .error ("failed to start MCP process: " ++ e)
      | .ok _ => env.callResult
  else
    if processes.contains serverID then env.callResult
    else .error ("MCP server " ++ serverID ++ " not connected")

/-- `Manager.CallTool`: on a successful result, `LastPing` and `UpdatedAt` of
the invoked server are set to the current time (regardless of transport). -/
def callTool (servers : List MCPServer) (processes : List String)
    (serverID toolName : String) (env : CallEnv) (now : Int) :
    Except String JsonVal × List MCPServer :=
  match servers.find? (fun q => q.id = serverID) with
  | none => (.error ("MCP server " ++ serverID ++ " not found"), servers)
  | some server =>
    match callToolResult server processes serverID env with
    | .ok v =>
      (.ok v, servers.map (fun q =>
        if q.id = serverID then { q with lastPing := now, updatedAt := now } else q))
    | .error e => (.error e, servers)

/-- `Manager.testStdioServer`: probe subprocess start (`startErr`) and tool
discovery (`tools`); a start failure or an empty catalog sets status `error`,
a non-empty catalog caches it and sets status `available`. -/
def testStdioServerGo (s : MCPServer) (startErr : Option String)
    (tools : List MCPTool) (now : Int) : MCPServer :=
  match startErr with
  | some _ => { s with status := "error" }
  | none =>
    if tools.length > 0 then
      { s with
        capabilities := tools.map (fun t => t.name)
        tools := tools
        status := "available"
        updatedAt := now
        lastPing := now }
    else { s with status := "error" }

/-- One lifecycle event applied to a server record: a connection attempt
(`AddServer` / `connectToServer`, with the probe outcomes as parameters), or a
health-check sweep step. -/
inductive ServerStep where
  | connectAttempt (startErr : Option String) (tools : List MCPTool) (now : Int)
  | health (now : Int)

/-- Dispatch of `AddServer`/`connectToServer` by transport, plus the sweep. -/
def runServerStep (s : MCPServer) : ServerStep → MCPServer
  | .connectAttempt startErr tools now =>
    if s.transport = "stdio" then testStdioServerGo s startErr tools now
    else if s.transport = "sse" then updateServerStatusServer s "connected" now
    else if s.transport = "http" then updateServerStatusServer s "connected" now
    else updateServerStatusServer s "error" now
  | .health now => healthCheck now s

def runServer (init : MCPServer) (steps : List ServerStep) : MCPServer :=
  steps.foldl runServerStep init

/-- Whether a step performs a successful tool discovery (only the stdio probe
path discovers tools at all). -/
def discoverySuccess (transport : String) : ServerStep → Bool
  | .connectAttempt startErr tools _ =>
      transport == "stdio" && startErr.isNone && !tools.isEmpty
  | .health _ => false

/-- `Manager.GetAllTools`: include only servers with status
`available`/`connected`; stdio servers contribute their cached tools, others
the live process catalog. -/
def getAllTools (servers : List MCPServer)
    (processTools : String → Option (List MCPTool)) : List (String × List MCPTool) :=
  servers.foldr (fun s acc =>
    if s.status = "available" ∨ s.status = "connected" then
      if s.transport = "stdio" ∧ s.tools.length > 0 then (s.name, s.tools) :: acc
      else
        match processTools s.id with
        | some ts => (s.name, ts) :: acc
        | none => acc
    else acc) []

/-! ### Helper lemmas for the registry -/

theorem healthCheck_status_cases (now : Int) (s : MCPServer) :
    (healthCheck now s).status = s.status ∨ (healthCheck now s).status = "unhealthy" := by
  unfold healthCheck
  split
  · left; rfl
  · split
    · split
      · right; rfl
      · left; rfl
    · split
      · right; rfl
      · left; rfl

theorem updateServerStatusServer_transport (s : MCPServer) (st : String) (now : Int) :
    (updateServerStatusServer s st now).transport = s.transport := rfl

theorem testStdioServerGo_transport (s : MCPServer) (se : Option String)
    (tools : List MCPTool) (now : Int) :
    (testStdioServerGo s se tools now).transport = s.transport := by
  unfold testStdioServerGo
  split
  · rfl
  · split <;> rfl

theorem healthCheck_transport (now : Int) (s : MCPServer) :
    (healthCheck now s).transport = s.transport := by
  unfold healthCheck
  split
  · rfl
  · split
    · split <;> rfl
    · split <;> rfl

theorem runServerStep_transport (s : MCPServer) (st : ServerStep) :
    (runServerStep s st).transport = s.transport := by
  cases st with
  | connectAttempt se tools now =>
    simp only [runServerStep]
    split
    · exact testStdioServerGo_transport s se tools now
    · split
      · rfl
      · split <;> rfl
  | health now => exact healthCheck_transport now s

/-- For a stdio server, reaching status `available`/`connected` requires a
successful discovery step, unless the initial record already had it. -/
theorem runServer_available_src :
    ∀ (steps : List ServerStep) (init : MCPServer),
      init.transport = "stdio" →
      ((runServer init steps).status = "available"
        ∨ (runServer init steps).status = "connected") →
      (∃ st ∈ steps, discoverySuccess "stdio" st = true)
        ∨ init.status = "available" ∨ init.status = "connected" := by
  intro steps
  induction steps with
  | nil => intro init _ h; right; simpa [runServer] using h
  | cons st rest ih =>
    intro init htr h
    have hstep : runServer init (st :: rest) = runServer (runServerStep init st) rest := rfl
    rw [hstep] at h
    have htr' : (runServerStep init st).transport = "stdio" :=
      (runServerStep_transport init st).trans htr
    rcases ih (runServerStep init st) htr' h with h' | h' | h'
    · obtain ⟨st', hmem, hd⟩ := h'
      exact Or.inl ⟨st', List.mem_cons_of_mem st hmem, hd⟩
    · -- the step itself produced status "available"
      cases st with
      | health now =>
        rcases healthCheck_status_cases now init with hc | hc
        · right; left
          have : runServerStep init (ServerStep.health now) = healthCheck now init := rfl
          rw [this] at h'
          rw [← hc]; exact h'.symm ▸ rfl
        · exfalso
          have : runServerStep init (ServerStep.health now) = healthCheck now init := rfl
          rw [this, hc] at h'
          exact absurd h' (by decide)
      | connectAttempt se tools now =>
        have hrs : runServerStep init (ServerStep.connectAttempt se tools now)
            = testStdioServerGo init se tools now := by
          simp only [runServerStep]
          rw [if_pos htr]
        rw [hrs] at h'
        cases se with
        | some e =>
          exfalso
          simp [testStdioServerGo] at h'
        | none =>
          by_cases hlen : tools.length > 0
          · left
            refine ⟨ServerStep.connectAttempt none tools now, List.mem_cons_self _ _, ?_⟩
            have hne : tools.isEmpty = false := by
              cases tools with
              | nil => simp at hlen
              | cons a l => simp
            simp [discoverySuccess, hne]
          · exfalso
            simp [testStdioServerGo, hlen] at h'
    · -- same, for status "connected": the stdio probe never yields it
      cases st with
      | health now =>
        rcases healthCheck_status_cases now init with hc | hc
        · right; right
          have : runServerStep init (ServerStep.health now) = healthCheck now init := rfl
          rw [this] at h'
          rw [← hc]; exact h'.symm ▸ rfl
        · exfalso
          have : runServerStep init (ServerStep.health now) = healthCheck now init := rfl
          rw [this, hc] at h'
          exact absurd h' (by decide)
      | connectAttempt se tools now =>
        have hrs : runServerStep init (ServerStep.connectAttempt se tools now)
            = testStdioServerGo init se tools now := by
          simp only [runServerStep]
          rw [if_pos htr]
        rw [hrs] at h'
        cases se with
        | some e => exfalso; simp [testStdioServerGo] at h'
        | none =>
          by_cases hlen : tools.length > 0
          · exfalso; simp [testStdioServerGo, hlen] at h'
          · exfalso; simp [testStdioServerGo, hlen] at h'

/-! ### C3: health-check sweeps never touch stdio providers -/

/-- C3: one health-check sweep step leaves a stdio provider completely
unchanged (whatever its status and however stale its last-ping), and any
status change performed by the sweep happens on a non-stdio transport and
goes to `unhealthy`. -/
theorem healthCheck_stdio_frame (now : Int) (s : MCPServer) :
    (s.transport = "stdio" → healthCheck now s = s)
    ∧ ((healthCheck now s).status ≠ s.status →
        s.transport ≠ "stdio" ∧ (healthCheck now s).status = "unhealthy") := by
  constructor
  · intro h
    simp [healthCheck, h]
  · intro hch
    by_cases h : s.transport = "stdio"
    · exact absurd (by simp [healthCheck, h]) hch
    · refine ⟨h, ?_⟩
      unfold healthCheck at hch ⊢
      rw [if_neg h] at hch ⊢
      by_cases h2 : s.transport = "sse" ∨ s.transport = "http"
      · rw [if_pos h2] at hch ⊢
        by_cases h3 : now - s.lastPing > 60
        · rw [if_pos h3]; rfl
        · rw [if_neg h3] at hch; exact absurd rfl hch
      · rw [if_neg h2] at hch ⊢
        by_cases h3 : now - s.lastPing > 120
        · rw [if_pos h3]; rfl
        · rw [if_neg h3] at hch; exact absurd rfl hch

def stdioServerEx : MCPServer :=
  { id := "s1", name := "desktop", transport := "stdio", url := "npx server",
    status := "available", lastPing := 0 }

theorem healthCheck_stdio_frame_witness :
    healthCheck 1000 stdioServerEx = stdioServerEx :=
  (healthCheck_stdio_frame 1000 stdioServerEx).1 rfl

/-! ### C4: the last-ping discipline -/

/-- C4: a status update to `unhealthy` leaves `last-ping` unchanged; a status
update to anything else stamps `last-ping` with the current time; and a
successful `CallTool` stamps the invoked server's `last-ping` with the current
time regardless of transport. -/
theorem lastPing_update_discipline (s : MCPServer) (status : String) (now : Int)
    (servers : List MCPServer) (processes : List String) (serverID toolName : String)
    (env : CallEnv) (v : JsonVal) (now' : Int) :
    (status = "unhealthy" → (updateServerStatusServer s status now).lastPing = s.lastPing)
    ∧ (status ≠ "unhealthy" → (updateServerStatusServer s status now).lastPing = now)
    ∧ ((callTool servers processes serverID toolName env now').1 = Except.ok v →
        ∀ q ∈ (callTool servers processes serverID toolName env now').2,
          q.id = serverID → q.lastPing = now') := by
  refine ⟨?_, ?_, ?_⟩
  · intro h
    simp [updateServerStatusServer, h]
  · intro h
    simp [updateServerStatusServer, h]
  · intro hok q hq hqid
    unfold callTool at hok hq
    cases hf : servers.find? (fun q => q.id = serverID) with
    | none => rw [hf] at hok; simp at hok
    | some server =>
      rw [hf] at hok hq
      dsimp only at hok hq
      cases hr : callToolResult server processes serverID env with
      | error e => rw [hr] at hok; simp at hok
      | ok w =>
        rw [hr] at hq
        simp only at hq
        obtain ⟨orig, horig, rfl⟩ := List.mem_map.mp hq
        by_cases ho : orig.id = serverID
        · simp [ho]
        · rw [if_neg ho] at hqid ⊢
          exact absurd hqid ho

def envEx : CallEnv := ⟨Except.ok (), Except.ok JsonVal.null⟩

theorem lastPing_update_discipline_witness :
    (updateServerStatusServer stdioServerEx "connected" 5).lastPing = 5 :=
  (lastPing_update_discipline stdioServerEx "connected" 5 [] [] "s1" "t" envEx
    JsonVal.null 0).2.1 (by decide)

/-! ### C7: discovery discipline of provider status -/

/-- C7 (amended): a stdio provider added as `pending` reaches status
`available` only through a probe step whose subprocess started and whose
discovery returned a non-empty catalog; an `available` probe outcome forces a
non-empty catalog, and an empty-catalog probe sets status `error`.  SSE
providers, by contrast, are marked `connected` by a connect attempt that
performs no tool discovery.  Every entry of the aggregated catalog
(`GetAllTools`) comes from a provider whose status is `available` or
`connected`, so a provider in status `error` is never exposed. -/
theorem provider_status_discovery_discipline :
    (∀ (init : MCPServer) (steps : List ServerStep),
        init.transport = "stdio" → init.status = "pending" →
        (runServer init steps).status = "available" →
        ∃ st ∈ steps, discoverySuccess "stdio" st = true)
    ∧ (∀ (s : MCPServer) (tools : List MCPTool) (now : Int),
        (testStdioServerGo s none tools now).status = "available" → 0 < tools.length)
    ∧ (∀ (s : MCPServer) (now : Int),
        (testStdioServerGo s none [] now).status = "error")
    ∧ (∀ (s : MCPServer) (b : Option String) (tools : List MCPTool) (now : Int),
        s.transport = "sse" →
        runServerStep s (ServerStep.connectAttempt b tools now)
          = updateServerStatusServer s "connected" now)
    ∧ (∀ (servers : List MCPServer) (pt : String → Option (List MCPTool))
        (entry : String × List MCPTool), entry ∈ getAllTools servers pt →
        ∃ s, s ∈ servers ∧ s.name = entry.1
          ∧ (s.status = "available" ∨ s.status = "connected")) := by
  refine ⟨?_, ?_, ?_, ?_, ?_⟩
  · intro init steps htr hpend havail
    rcases runServer_available_src steps init htr (Or.inl havail) with h | h | h
    · exact h
    · rw [hpend] at h; exact absurd h (by decide)
    · rw [hpend] at h; exact absurd h (by decide)
  · intro s tools now h
    by_cases hlen : 0 < tools.length
    · exact hlen
    · exfalso
      simp only [testStdioServerGo] at h
      rw [if_neg hlen] at h
      simp at h
  · intro s now
    simp [testStdioServerGo]
  · intro s b tools now htr
    have hne : s.transport ≠ "stdio" := by rw [htr]; decide
    simp only [runServerStep]
    rw [if_neg hne, if_pos htr]
  · intro servers pt entry hmem
    induction servers with
    | nil => simp [getAllTools] at hmem
    | cons s rest ih =>
      simp only [getAllTools, List.foldr_cons] at hmem
      by_cases hst : s.status = "available" ∨ s.status = "connected"
      · rw [if_pos hst] at hmem
        by_cases hstd : s.transport = "stdio" ∧ s.tools.length > 0
        · rw [if_pos hstd] at hmem
          rcases List.mem_cons.mp hmem with h | h
          · exact ⟨s, List.mem_cons_self s rest, by rw [h], hst⟩
          · obtain ⟨q, hq, hrest⟩ := ih h
            exact ⟨q, List.mem_cons_of_mem s hq, hrest⟩
        · rw [if_neg hstd] at hmem
          cases hpt : pt s.id with
          | some ts =>
            rw [hpt] at hmem
            rcases List.mem_cons.mp hmem with h | h
            · exact ⟨s, List.mem_cons_self s rest, by rw [h], hst⟩
            · obtain ⟨q, hq, hrest⟩ := ih h
              exact ⟨q, List.mem_cons_of_mem s hq, hrest⟩
          | none =>
            rw [hpt] at hmem
            obtain ⟨q, hq, hrest⟩ := ih hmem
            exact ⟨q, List.mem_cons_of_mem s hq, hrest⟩
      · rw [if_neg hst] at hmem
        obtain ⟨q, hq, hrest⟩ := ih hmem
        exact ⟨q, List.mem_cons_of_mem s hq, hrest⟩

def mcpToolEx : MCPTool := { name := "list_directory" }

def stdioPendingEx : MCPServer :=
  { id := "s3", name := "local", transport := "stdio", url := "npx tool",
    status := "pending", lastPing := 0 }

theorem provider_status_discovery_discipline_witness :
    0 < [mcpToolEx].length :=
  provider_status_discovery_discipline.2.1 stdioPendingEx [mcpToolEx] 7 (by decide)

def sseServerEx : MCPServer :=
  { id := "s2", name := "remote", transport := "sse", url := "http://h/sse",
    status := "pending", lastPing := 0 }

/-- C7 counterexample: an SSE provider reaches status `connected` through a
connect attempt that performs no tool discovery at all and leaves its catalog
empty — refuting "status becomes available or connected only after at least
one successful tool discovery". -/
theorem sse_connected_without_discovery :
    (runServer sseServerEx [ServerStep.connectAttempt none [] 0]).status = "connected"
    ∧ discoverySuccess "sse" (ServerStep.connectAttempt none [] 0) = false
    ∧ (runServer sseServerEx [ServerStep.connectAttempt none [] 0]).tools.isEmpty = true := by
  refine ⟨?_, ?_, ?_⟩
  · decide
  · decide
  · decide

/-! ## LLM Provider Manager (llm package, `manager.go`)

The provider map is embedded as a list of records with pairwise-distinct ids
(Go map semantics: inserting an existing id replaces the record).  The uuid
generator and the wall clock are parameters of the operations.
-/

/-- Go type `types.LLMProvider`. -/
structure LLMProvider where
  id : String
  name : String
  type' : String
  apiKey : String := ""
  endpoint : String := ""
  model : String := ""
  config : List (String × JsonVal) := []
  isActive : Bool := false
  createdAt : Int := 0
  updatedAt : Int := 0

/-- `Manager.validateProvider` (the copy with endpoint normalization): checks
name, type, api key and endpoint; for local providers it also rewrites the
endpoint through `normalizeLocalEndpoint` (an in-place mutation in Go, hence
the returned record). -/
def validateProvider (p : LLMProvider) : Except String LLMProvider :=
  if p.name = "" then .error "provider name is required"
  else if p.type' = "" then .error "provider type is required"
  else if ¬ (p.type' = "openai" ∨ p.type' = "anthropic" ∨ p.type' = "google"
      ∨ p.type' = "local") then
    .error ("unsupported provider type: " ++ p.type')
  else if p.type' ≠ "local" ∧ p.apiKey = "" then
    .error ("API key is required for provider type " ++ p.type')
  else if p.type' = "local" then
    if p.endpoint = "" then .error "endpoint is required for local provider"
    else .ok { p with endpoint := normalizeLocalEndpoint p.endpoint }
  else .ok p

/-- Go map insertion `m.providers[provider.ID] = provider`. -/
def insertProvider (s : List LLMProvider) (p : LLMProvider) : List LLMProvider :=
  if s.any (fun q => q.id = p.id) then
    s.map (fun q => if q.id = p.id then p else q)
  else s ++ [p]

/-- `if provider.ID == "" { provider.ID = uuid.New().String() }`. -/
def assignId (p : LLMProvider) (freshId : String) : LLMProvider :=
  if p.id = "" then { p with id := freshId } else p

/-- `provider.CreatedAt = time.Now(); provider.UpdatedAt = time.Now()`. -/
def stampNew (p : LLMProvider) (now : Int) : LLMProvider :=
  { p with createdAt := now, updatedAt := now }

/-- `Manager.AddProvider`: assign a fresh uuid when the id is empty, stamp the
timestamps, validate (rejecting leaves the map unchanged), insert. -/
def addProvider (s : List LLMProvider) (p : LLMProvider) (freshId : String)
    (now : Int) : List LLMProvider :=
  match validateProvider (stampNew (assignId p freshId) now) with
  | .error _ => s
  | .ok p3 => insertProvider s p3

/-- `Manager.SetActiveProvider`: unknown id leaves the map unchanged;
otherwise clear `IsActive` on every record, then set it on the chosen one. -/
def setActiveProvider (s : List LLMProvider) (id : String) (now : Int) :
    List LLMProvider :=
  if s.any (fun q => q.id = id) then
    let cleared := s.map (fun q => { q with isActive := false, updatedAt := now })
    cleared.map (fun q =>
      if q.id = id then { q with isActive := true, updatedAt := now } else q)
  else s

/-- The `updates map[string]interface{}` accepted by `UpdateProvider` (only
these four keys are read). -/
structure ProviderUpdates where
  name : Option String := none
  endpoint : Option String := none
  model : Option String := none
  config : Option (List (String × JsonVal)) := none

def applyUpdates (q : LLMProvider) (u : ProviderUpdates) (now : Int) : LLMProvider :=
  let q1 := match u.name with | some n => { q with name := n } | none => q
  let q2 := match u.endpoint with | some e => { q1 with endpoint := e } | none => q1
  let q3 := match u.model with | some m => { q2 with model := m } | none => q2
  let q4 := match u.config with | some c => { q3 with config := c } | none => q3
  { q4 with updatedAt := now }

/-- `Manager.UpdateProvider`: the fields are mutated in place *before*
validation, so a failing validation still leaves the mutated record in the
map (only the error return differs); a succeeding validation additionally
normalizes a local endpoint. -/
def updateProvider (s : List LLMProvider) (id : String) (u : ProviderUpdates)
    (now : Int) : List LLMProvider :=
  if s.any (fun q => q.id = id) then
    s.map (fun q =>
      if q.id = id then
        match validateProvider (applyUpdates q u now) with
        | .ok q2 => q2
        | .error _ => applyUpdates q u now
      else q)
  else s

/-- `Manager.RemoveProvider`. -/
def removeProvider (s : List LLMProvider) (id : String) : List LLMProvider :=
  if s.any (fun q => q.id = id) then s.filter (fun q => ¬ q.id = id) else s

/-- One public mutation of the manager, with its external inputs (uuid, clock). -/
inductive ManagerOp where
  | add (p : LLMProvider) (freshId : String) (now : Int)
  | setActive (id : String) (now : Int)
  | update (id : String) (u : ProviderUpdates) (now : Int)
  | remove (id : String)

def runOp (s : List LLMProvider) : ManagerOp → List LLMProvider
  | .add p freshId now => addProvider s p freshId now
  | .setActive id now => setActiveProvider s id now
  | .update id u now => updateProvider s id u now
  | .remove id => removeProvider s id

/-- States reachable from the empty provider map. -/
def runOps (ops : List ManagerOp) : List LLMProvider := ops.foldl runOp []

def countActive (s : List LLMProvider) : Nat := s.countP (fun q => q.isActive)

def idsNodup (s : List LLMProvider) : Prop := (s.map (fun q => q.id)).Nodup

/-! ### Field-preservation and counting lemmas for the manager -/

theorem validateProvider_ok_fields {p q : LLMProvider}
    (h : validateProvider p = .ok q) : q.id = p.id ∧ q.isActive = p.isActive := by
  unfold validateProvider at h
  split at h
  · simp at h
  · split at h
    · simp at h
    · split at h
      · simp at h
      · split at h
        · simp at h
        · split at h
          · split at h
            · simp at h
            · injection h with h2
              subst h2
              exact ⟨rfl, rfl⟩
          · injection h with h2
            subst h2
            exact ⟨rfl, rfl⟩

theorem assignId_fields (p : LLMProvider) (freshId : String) :
    (assignId p freshId).isActive = p.isActive := by
  unfold assignId
  split <;> rfl

theorem applyUpdates_fields (q : LLMProvider) (u : ProviderUpdates) (now : Int) :
    (applyUpdates q u now).id = q.id ∧ (applyUpdates q u now).isActive = q.isActive := by
  unfold applyUpdates
  rcases u with ⟨un, ue, um, uc⟩
  cases un <;> cases ue <;> cases um <;> cases uc <;> exact ⟨rfl, rfl⟩

theorem countActive_map_eq (g : LLMProvider → LLMProvider)
    (hg : ∀ q, (g q).isActive = q.isActive) :
    ∀ s : List LLMProvider, countActive (s.map g) = countActive s := by
  intro s
  induction s with
  | nil => rfl
  | cons a rest ih =>
    simp only [List.map_cons, countActive, List.countP_cons] at *
    rw [ih, hg]

theorem ids_map_eq (g : LLMProvider → LLMProvider)
    (hg : ∀ q, (g q).id = q.id) :
    ∀ s : List LLMProvider, (s.map g).map (fun q => q.id) = s.map (fun q => q.id) := by
  intro s
  induction s with
  | nil => rfl
  | cons a rest ih => simp only [List.map_cons, ih, hg]

theorem countActive_replace_le {p : LLMProvider} (hp : p.isActive = false) :
    ∀ s : List LLMProvider,
      countActive (s.map (fun q => if q.id = p.id then p else q)) ≤ countActive s := by
  intro s
  induction s with
  | nil => exact Nat.le_refl _
  | cons a rest ih =>
    simp only [List.map_cons, countActive, List.countP_cons] at *
    by_cases ha : a.id = p.id
    · rw [if_pos ha, hp]
      simp only [Bool.false_eq_true, if_false, Nat.add_zero]
      exact Nat.le_trans ih (Nat.le_add_right _ _)
    · rw [if_neg ha]
      exact Nat.add_le_add_right ih _

theorem countActive_insertProvider_le {s : List LLMProvider} {p : LLMProvider}
    (hp : p.isActive = false) :
    countActive (insertProvider s p) ≤ countActive s := by
  unfold insertProvider
  split
  · exact countActive_replace_le hp s
  · simp [countActive, List.countP_append, hp]

theorem idsNodup_insertProvider {s : List LLMProvider} {p : LLMProvider}
    (hnd : idsNodup s) : idsNodup (insertProvider s p) := by
  unfold insertProvider
  split
  · unfold idsNodup
    rw [ids_map_eq _ (fun q => by
      by_cases h : q.id = p.id
      · rw [if_pos h]; exact h.symm
      · rw [if_neg h]) s]
    exact hnd
  · rename_i hany
    have hnotmem : p.id ∉ s.map (fun q => q.id) := by
      intro hmem
      obtain ⟨q, hq, hid⟩ := List.mem_map.mp hmem
      exact hany (List.any_eq_true.mpr ⟨q, hq, by simp [hid]⟩)
    unfold idsNodup
    rw [List.map_append]
    simp only [List.map_cons, List.map_nil]
    exact List.Nodup.append hnd (List.nodup_singleton _)
      (by intro a ha hb; simp at hb; subst hb; exact hnotmem ha)

/-- With all records cleared, only ids equal to the chosen one are re-activated;
if the chosen id does not occur, the count is zero. -/
theorem setActive_maps_count_zero (id : String) (now : Int) :
    ∀ s : List LLMProvider, id ∉ s.map (fun q => q.id) →
      countActive ((s.map (fun q => { q with isActive := false, updatedAt := now })).map
        (fun q => if q.id = id then { q with isActive := true, updatedAt := now } else q)) = 0 := by
  intro s
  induction s with
  | nil => intro _; rfl
  | cons a rest ih =>
    intro hnot
    simp only [List.map_cons, List.mem_cons, not_or] at hnot
    obtain ⟨hne, hrest⟩ := hnot
    have ha : ¬ ({ a with isActive := false, updatedAt := now } : LLMProvider).id = id := by
      simpa using fun h => hne h.symm
    simp only [List.map_cons, countActive, List.countP_cons]
    rw [if_neg ha]
    simp only [Bool.false_eq_true, if_false, Nat.add_zero]
    exact ih hrest

theorem setActive_found_count_le (id : String) (now : Int) :
    ∀ s : List LLMProvider, idsNodup s →
      countActive ((s.map (fun q => { q with isActive := false, updatedAt := now })).map
        (fun q => if q.id = id then { q with isActive := true, updatedAt := now } else q)) ≤ 1 := by
  intro s
  induction s with
  | nil => intro _; exact Nat.zero_le _
  | cons a rest ih =>
    intro hnd
    unfold idsNodup at hnd
    simp only [List.map_cons, List.nodup_cons] at hnd
    obtain ⟨hnotmem, hndrest⟩ := hnd
    simp only [List.map_cons, countActive, List.countP_cons]
    by_cases ha : ({ a with isActive := false, updatedAt := now } : LLMProvider).id = id
    · rw [if_pos ha]
      have hz := setActive_maps_count_zero id now rest (by
        have : a.id = id := by simpa using ha
        rw [← this]; exact hnotmem)
      unfold countActive at hz
      rw [hz]
      simp
    · rw [if_neg ha]
      simp only [Bool.false_eq_true, if_false, Nat.add_zero]
      exact ih hndrest

theorem idsNodup_of_map_preserving {s : List LLMProvider}
    (g : LLMProvider → LLMProvider) (hg : ∀ q, (g q).id = q.id)
    (hnd : idsNodup s) : idsNodup (s.map g) := by
  unfold idsNodup
  rw [ids_map_eq g hg s]
  exact hnd

theorem countActive_filter_le (s : List LLMProvider) (pr : LLMProvider → Bool) :
    countActive (s.filter pr) ≤ countActive s :=
  List.Sublist.countP_le _ (List.filter_sublist s)

theorem idsNodup_filter {s : List LLMProvider} (pr : LLMProvider → Bool)
    (hnd : idsNodup s) : idsNodup (s.filter pr) :=
  List.Nodup.sublist (List.Sublist.map _ (List.filter_sublist s)) hnd

/-- Invariant preservation for one operation. -/
theorem runOp_inv (s : List LLMProvider) (op : ManagerOp)
    (h1 : countActive s ≤ 1) (h2 : idsNodup s)
    (hadd : ∀ p fid now, op = ManagerOp.add p fid now → p.isActive = false) :
    countActive (runOp s op) ≤ 1 ∧ idsNodup (runOp s op) := by
  cases op with
  | add p fid now =>
    have hp : p.isActive = false := hadd p fid now rfl
    show countActive (addProvider s p fid now) ≤ 1 ∧ idsNodup (addProvider s p fid now)
    unfold addProvider
    cases hv : validateProvider (stampNew (assignId p fid) now) with
    | error e => exact ⟨h1, h2⟩
    | ok p3 =>
      have hp3 : p3.isActive = false := by
        have hf := (validateProvider_ok_fields hv).2
        rw [hf]
        show (assignId p fid).isActive = false
        rw [assignId_fields]
        exact hp
      exact ⟨Nat.le_trans (countActive_insertProvider_le hp3) h1,
             idsNodup_insertProvider h2⟩
  | setActive id now =>
    show countActive (setActiveProvider s id now) ≤ 1 ∧ idsNodup (setActiveProvider s id now)
    unfold setActiveProvider
    split
    · constructor
      · exact setActive_found_count_le id now s h2
      · dsimp only
        rw [List.map_map]
        refine idsNodup_of_map_preserving _ (fun q => ?_) h2
        simp only [Function.comp_apply]
        by_cases hq : ({ q with isActive := false, updatedAt := now } : LLMProvider).id = id
        · rw [if_pos hq]
        · rw [if_neg hq]
    · exact ⟨h1, h2⟩
  | update id u now =>
    show countActive (updateProvider s id u now) ≤ 1 ∧ idsNodup (updateProvider s id u now)
    unfold updateProvider
    split
    · have hactive : ∀ q : LLMProvider,
          ((if q.id = id then
              match validateProvider (applyUpdates q u now) with
              | .ok q2 => q2
              | .error _ => applyUpdates q u now
            else q) : LLMProvider).isActive = q.isActive := by
        intro q
        by_cases hq : q.id = id
        · rw [if_pos hq]
          cases hv : validateProvider (applyUpdates q u now) with
          | ok q2 => exact ((validateProvider_ok_fields hv).2).trans (applyUpdates_fields q u now).2
          | error e => exact (applyUpdates_fields q u now).2
        · rw [if_neg hq]
      have hid : ∀ q : LLMProvider,
          ((if q.id = id then
              match validateProvider (applyUpdates q u now) with
              | .ok q2 => q2
              | .error _ => applyUpdates q u now
            else q) : LLMProvider).id = q.id := by
        intro q
        by_cases hq : q.id = id
        · rw [if_pos hq]
          cases hv : validateProvider (applyUpdates q u now) with
          | ok q2 => exact ((validateProvider_ok_fields hv).1).trans (applyUpdates_fields q u now).1
          | error e => exact (applyUpdates_fields q u now).1
        · rw [if_neg hq]
      constructor
      · rw [countActive_map_eq _ hactive s]; exact h1
      · exact idsNodup_of_map_preserving _ hid h2
    · exact ⟨h1, h2⟩
  | remove id =>
    show countActive (removeProvider s id) ≤ 1 ∧ idsNodup (removeProvider s id)
    unfold removeProvider
    split
    · exact ⟨Nat.le_trans (countActive_filter_le s _) h1, idsNodup_filter _ h2⟩
    · exact ⟨h1, h2⟩

theorem runOps_inv (ops : List ManagerOp) :
    ∀ s : List LLMProvider, countActive s ≤ 1 → idsNodup s →
      (∀ p fid now, ManagerOp.add p fid now ∈ ops → p.isActive = false) →
      countActive (ops.foldl runOp s) ≤ 1 ∧ idsNodup (ops.foldl runOp s) := by
  induction ops with
  | nil => intro s h1 h2 _; exact ⟨h1, h2⟩
  | cons op rest ih =>
    intro s h1 h2 hadds
    have hstep := runOp_inv s op h1 h2
      (fun p fid now hop => hadds p fid now (hop ▸ List.mem_cons_self _ _))
    exact ih (runOp s op) hstep.1 hstep.2
      (fun p fid now hmem => hadds p fid now (List.mem_cons_of_mem _ hmem))

/-! ### C2: at most one active provider -/

/-- C2 (amended): starting from the empty provider map, any sequence of
AddProvider / SetActiveProvider / UpdateProvider / RemoveProvider operations
in which every added record carries `active=false` (AddProvider stores the
given flag unchanged) leaves at most one record with `active=true`; and on any
state containing the chosen id, SetActiveProvider clears the flag on every
other record and sets it exactly on records with the chosen id. -/
theorem manager_single_active (ops : List ManagerOp)
    (hadds : ∀ p fid now, ManagerOp.add p fid now ∈ ops → p.isActive = false) :
    countActive (runOps ops) ≤ 1
    ∧ (∀ (s : List LLMProvider) (id : String) (now : Int),
        s.any (fun q => q.id = id) = true →
        ∀ q ∈ setActiveProvider s id now, (q.isActive = true ↔ q.id = id)) := by
  constructor
  · exact (runOps_inv ops [] (Nat.zero_le _) List.nodup_nil hadds).1
  · intro s id now hfound q hq
    unfold setActiveProvider at hq
    rw [if_pos hfound] at hq
    obtain ⟨q1, hq1, rfl⟩ := List.mem_map.mp hq
    obtain ⟨q0, hq0, rfl⟩ := List.mem_map.mp hq1
    by_cases hid : ({ q0 with isActive := false, updatedAt := now } : LLMProvider).id = id
    · rw [if_pos hid]
      constructor
      · intro _; exact hid
      · intro _; rfl
    · rw [if_neg hid]
      constructor
      · intro hfalse; simp at hfalse
      · intro hcontra; exact absurd hcontra hid

def inactiveProviderEx : LLMProvider :=
  { id := "a", name := "prov", type' := "openai", apiKey := "k", model := "gpt-4" }

theorem manager_single_active_witness :
    countActive (runOps [ManagerOp.add inactiveProviderEx "f1" 0,
                         ManagerOp.setActive "a" 1]) ≤ 1 :=
  (manager_single_active [ManagerOp.add inactiveProviderEx "f1" 0,
                          ManagerOp.setActive "a" 1]
    (by
      intro p fid now hmem
      rcases List.mem_cons.mp hmem with h | h
      · cases h; rfl
      · rcases List.mem_cons.mp h with h' | h'
        · exact absurd h' (by simp)
        · simp at h')).1

/-- C2 counterexample: `AddProvider` stores the caller's record as given and
never touches `IsActive`, so adding two records that both carry `active=true`
yields a reachable state with two active providers. -/
theorem two_active_after_adds :
    countActive (runOps
      [ManagerOp.add { id := "a", name := "prov", type' := "openai", apiKey := "k",
                       model := "gpt-4", isActive := true } "f1" 0,
       ManagerOp.add { id := "b", name := "prov2", type' := "openai", apiKey := "k",
                       model := "gpt-4", isActive := true } "f2" 0]) = 2 := by
  decide

/-! ## MCP JSON-RPC request ids (mcp package, `protocol.go`)

`MCPProcess.initialize` sends its request with explicit `ID: 1`,
`discoverTools` sends `tools/list` with explicit `ID: 2`, and `CallTool`
sends `tools/call` with `ID: int(time.Now().Unix())` — the wall-clock Unix
second.  `sendRequest` assigns the `nextID` counter only to requests whose id
is 0, which never happens for these three callers.
-/

def initializeRequestId : Int := 1

def discoverToolsRequestId : Int := 2

/-- `int(time.Now().Unix())` at the moment the `tools/call` is sent. -/
def callToolRequestId (unixNow : Int) : Int := unixNow

/-- The ids carried by the request sequence of one connection: `initialize`,
`tools/list`, then one `tools/call` per invocation at the given clock
readings. -/
def connectionRequestIds (callTimes : List Int) : List Int :=
  initializeRequestId :: discoverToolsRequestId :: callTimes.map callToolRequestId

def strictlyIncreasing : List Int → Bool
  | [] => true
  | [_] => true
  | a :: b :: rest => decide (a < b) && strictlyIncreasing (b :: rest)

/-! ### C8: monotonicity of request ids -/

/-- C8 (amended): the ids are 1, 2, then the Unix timestamps of the
`tools/call` sends; they are strictly increasing provided the clock readings
of successive tool calls strictly increase and all exceed 2 (equivalently,
the connection performs at most one tool call per second after 1970-01-01
00:00:02). -/
theorem connection_ids_monotone (ts : List Int)
    (hinc : strictlyIncreasing ts = true) (hbig : ∀ t ∈ ts, 2 < t) :
    strictlyIncreasing (connectionRequestIds ts) = true := by
  unfold connectionRequestIds
  have hmap : ∀ l : List Int, l.map callToolRequestId = l := by
    intro l
    induction l with
    | nil => rfl
    | cons a l ih => rw [List.map_cons, ih]; rfl
  rw [hmap ts]
  cases ts with
  | nil => decide
  | cons t rest =>
    have ht : 2 < t := hbig t (List.mem_cons_self _ _)
    simp only [initializeRequestId, discoverToolsRequestId, strictlyIncreasing,
      Bool.and_eq_true, decide_eq_true_eq]
    exact ⟨by decide, ht, hinc⟩

theorem connection_ids_monotone_witness :
    strictlyIncreasing (connectionRequestIds [1700000000, 1700000001]) = true :=
  connection_ids_monotone [1700000000, 1700000001] (by decide) (by decide)

/-- C8 counterexample: two `tools/call` requests sent within the same Unix
second carry the same wall-clock id, so the id sequence of the connection is
not strictly increasing (the claim demands every id strictly greater than all
earlier ones). -/
theorem connection_ids_not_strictly_increasing :
    strictlyIncreasing (connectionRequestIds [1700000000, 1700000000]) = false := by
  decide

/-! ## Local client Ollama streaming (llm package, `local_client.go`)

The reader loop of `ProcessMessageStream` in Ollama mode: read the body line
by line, trim whitespace, skip blank and malformed lines, emit a content
chunk for every response with non-empty `message.content`, and stop right
after emitting the terminal chunk for the first response with `done:true`.
The NDJSON decoding of a single line (`json.Unmarshal` into
`OllamaResponse`) is external code, passed in as `parse`.
-/

def isSpaceGo (c : Char) : Bool :=
  c == ' ' || c == '\t' || c == '\n' || c == '\r'

/-- Go `strings.TrimSpace`. -/
def trimSpaceGo (s : String) : String :=
  ⟨((s.data.dropWhile isSpaceGo).reverse.dropWhile isSpaceGo).reverse⟩

structure OllamaMessage where
  role : String := ""
  content : String
  deriving DecidableEq, Repr

/-- Go type `OllamaResponse`. -/
structure OllamaResponse where
  model : String := ""
  createdAt : String := ""
  message : OllamaMessage
  done : Bool
  deriving DecidableEq, Repr

/-- Go type `StreamChunk` (each sent chunk sets exactly one field). -/
inductive StreamChunk where
  | content (s : String)
  | done
  | errorChunk (e : String)
  deriving DecidableEq, Repr

def OllamaParse : Type := String → Except String OllamaResponse

/-- The Ollama reader loop of `ProcessMessageStream`, as a function of the
response body's lines. -/
def readOllamaStream (parse : OllamaParse) : List String → List StreamChunk
  | [] => []
  | line :: rest =>
    let l := trimSpaceGo line
    if l = "" then readOllamaStream parse rest
    else
      match parse l with
      | .error _ => readOllamaStream parse rest
      | .ok r =>
        (if r.message.content ≠ "" then [StreamChunk.content r.message.content] else [])
          ++ (if r.done then [StreamChunk.done] else readOllamaStream parse rest)

/-- The three NDJSON lines of the spec's streaming scenario. -/
def lineHel : String :=
  "\x7b\"message\":\x7b\"role\":\"assistant\",\"content\":\"Hel\"\x7d,\"done\":false\x7d"

def lineLo : String :=
  "\x7b\"message\":\x7b\"role\":\"assistant\",\"content\":\"lo\"\x7d,\"done\":false\x7d"

def lineDone : String :=
  "\x7b\"message\":\x7b\"role\":\"assistant\",\"content\":\"\"\x7d,\"done\":true\x7d"

/-- Models `encoding/json` on the three scenario lines. -/
def parseEx : OllamaParse := fun l =>
  if l = lineHel then
    .ok { message := { role := "assistant", content := "Hel" }, done := false }
  else if l = lineLo then
    .ok { message := { role := "assistant", content := "lo" }, done := false }
  else if l = lineDone then
    .ok { message := { role := "assistant", content := "" }, done := true }
  else .error "invalid character"

/-! ### C9: Ollama streaming chunk sequence -/

/-- C9: for each parsed NDJSON line the stream emits one content chunk
carrying that line's `message.content` when it is non-empty (and nothing
otherwise); the first line with `done:true` additionally emits the terminal
chunk and stops the loop; in particular the scenario lines with contents
"Hel", "lo" and a final `done:true` object yield exactly
chunk("Hel"), chunk("lo"), terminal. -/
theorem ollama_stream_chunks (parse : OllamaParse) (line : String)
    (rest : List String) (r : OllamaResponse) :
    (trimSpaceGo line ≠ "" → parse (trimSpaceGo line) = Except.ok r → r.done = false →
      readOllamaStream parse (line :: rest)
        = (if r.message.content ≠ "" then [StreamChunk.content r.message.content] else [])
            ++ readOllamaStream parse rest)
    ∧ (trimSpaceGo line ≠ "" → parse (trimSpaceGo line) = Except.ok r → r.done = true →
      readOllamaStream parse (line :: rest)
        = (if r.message.content ≠ "" then [StreamChunk.content r.message.content] else [])
            ++ [StreamChunk.done])
    ∧ readOllamaStream parseEx [lineHel, lineLo, lineDone]
        = [StreamChunk.content "Hel", StreamChunk.content "lo", StreamChunk.done] := by
  refine ⟨?_, ?_, ?_⟩
  · intro h1 h2 h3
    simp [readOllamaStream, h1, h2, h3]
  · intro h1 h2 h3
    simp [readOllamaStream, h1, h2, h3]
  · decide

theorem ollama_stream_chunks_witness :
    readOllamaStream parseEx (lineHel :: [lineLo, lineDone])
      = (if ("Hel" : String) ≠ "" then [StreamChunk.content "Hel"] else [])
          ++ readOllamaStream parseEx [lineLo, lineDone] :=
  (ollama_stream_chunks parseEx lineHel [lineLo, lineDone]
    { message := { role := "assistant", content := "Hel" }, done := false }).1
    (by decide) rfl rfl

end SysengAgent
